import Mathlib

/-!
Verification of the authenticated red-black tree engine (authredblack.py).

The Python module builds trees of the form `()` (empty) or
`(c, L, (k, dL, dR), R)` where `c` is the color `'R'`/`'B'`, `k` the key,
and `dL`, `dR` the cached digests of the two children.  Digests are opaque
values produced by a pluggable hash function `H` applied to the tuple
`(c, k, dL, dR)`; the empty tree's digest is the sentinel `''`.

We embed the digest carrier as a free inductive type `Digest` with the
sentinel `Digest.emp` standing for the Python `''` literal, and keep the
hash function `H` abstract as a parameter, mirroring the pluggable `H` of
`AuthRedBlack(H)`.  Keys are integers.  `Digest.mk` serves as the
canonical injective instantiation of `H` in concrete computations.
-/

namespace ARB

inductive Col where
  | R : Col
  | B : Col
deriving DecidableEq, Repr

inductive Digest where
  | emp : Digest
  | mk (c : Col) (k : Int) (dL dR : Digest) : Digest
deriving DecidableEq, Repr

inductive Tree where
  | nil : Tree
  | node (c : Col) (l : Tree) (k : Int) (dL dR : Digest) (r : Tree) : Tree
deriving DecidableEq, Repr

/-- One proof step, the Python `(c, (k, dL, dR))` yielded by `search`,
flattened to a 4-tuple.  There is no value field: a step carries exactly a
color, a key and the two cached child digests. -/
abbrev Step := Col × Int × Digest × Digest

section Engine

variable (H : Col → Int → Digest → Digest → Digest)

/-- Python `digest`: the empty sentinel for the empty tree, otherwise
`H(c, k, dL, dR)` read off the node's own payload (cached child digests,
not a recursive recomputation). -/
def digest : Tree → Digest
  | .nil => .emp
  | .node c _ k dL dR _ => H c k dL dR

/-- Python `rehash`: recompute each cached child digest, but only when the
corresponding child subtree is actually present.  (The Python function
would fail on the empty tuple; it is never applied to one, and we let it
act as the identity there.) -/
def rehash : Tree → Tree
  | .nil => .nil
  | .node c l k dL dR r =>
      .node c l k (if l = .nil then dL else digest H l)
        (if r = .nil then dR else digest H r) r

/-- Python `balance`: try the four red-red shapes in order, rewrite the
first match to the canonical balanced form, fall through to the node
itself, and `rehash` the result.  The four patterns and the single rewrite
template transcribe the four `match` calls on lines 57-60 of the source. -/
def balance (D : Tree) : Tree :=
  rehash H (match D with
    | .node .B (.node .R (.node .R a x m n b) y _ o c) z _ p d =>
        .node .R (.node .B a x m n b) y .emp .emp (.node .B c z o p d)
    | .node .B (.node .R a x m _ (.node .R b y n o c)) z _ p d =>
        .node .R (.node .B a x m n b) y .emp .emp (.node .B c z o p d)
    | .node .B a x m _ (.node .R (.node .R b y n o c) z _ p d) =>
        .node .R (.node .B a x m n b) y .emp .emp (.node .B c z o p d)
    | .node .B a x m _ (.node .R b y n _ (.node .R c z o p d)) =>
        .node .R (.node .B a x m n b) y .emp .emp (.node .B c z o p d)
    | D => D)

end Engine

/-- Python `search`: yield one step per visited node, descending left when
`q <= k` and right otherwise, stopping at the empty tree. -/
def search (q : Int) : Tree → List Step
  | .nil => []
  | .node c l k dL dR r =>
      (c, k, dL, dR) :: (if q ≤ k then search q l else search q r)

/-- Python `query`: collect the full proof; the first component is `None`
(here `none`) when the proof is empty and the Python boolean
`proof[-1] key == q` (here `some (k == q)`) otherwise. -/
def query (q : Int) (D : Tree) : Option Bool × List Step :=
  match (search q D).getLast? with
  | none => (none, search q D)
  | some (_, k, _, _) => (some (k == q), search q D)

section Verifier

variable (H : Col → Int → Digest → Digest → Digest)

/-- Python `reconstruct`: rebuild the spine from the proof, returning
`none` where the Python code raises `AssertionError` (leaf digests not
both the empty sentinel, or a child digest mismatch). -/
def reconstruct : List Step → Option Tree
  | [] => some .nil
  | (c, k, hL, hR) :: rest =>
    match reconstruct rest with
    | none => none
    | some .nil =>
        if hL = .emp ∧ hR = .emp then some (.node c .nil k hL hR .nil) else none
    | some (.node c2 l2 k2 dL2 dR2 r2) =>
        if k2 ≤ k then
          if hL = digest H (.node c2 l2 k2 dL2 dR2 r2) then
            some (.node c (.node c2 l2 k2 dL2 dR2 r2) k hL hR .nil)
          else none
        else
          if hR = digest H (.node c2 l2 k2 dL2 dR2 r2) then
            some (.node c .nil k hL hR (.node c2 l2 k2 dL2 dR2 r2))
          else none

/-- Python `verify`: reconstruct, check the root digest against the
trusted one, and check that replaying the search reproduces the proof;
`false` stands for the raised `AssertionError` on any failed check. -/
def verify (q : Int) (d0 : Digest) (proof : List Step) : Bool :=
  match reconstruct H proof with
  | none => false
  | some r => decide (digest H r = d0) && decide (proof = search q r)

/-- Python `make_black` (local to `insert`): force the root color to
Black.  Never applied to the empty tree by the source; identity there. -/
def make_black : Tree → Tree
  | .nil => .nil
  | .node _ a y dL dR b => .node .B a y dL dR b

/-- Python `ins` (local to `insert(q, D)`): the recursive descent.  The
payload created for the inserted key is `x = (q, '', '')`. -/
def ins (q : Int) : Tree → Tree
  | .nil => .node .B .nil q .emp .emp .nil
  | .node c a k dL dR b =>
    if q = k then .node c a k dL dR b
    else if q < k ∧ a = .nil then
      balance H (rehash H (.node .R (ins q a) q .emp .emp
        (make_black (.node c a k dL dR b))))
    else if k < q ∧ b = .nil then
      balance H (rehash H (.node .R (make_black (.node c a k dL dR b)) k dL dR
        (ins q b)))
    else if q < k then balance H (.node c (ins q a) k dL dR b)
    else balance H (.node c a k dL dR (ins q b))

/-- Python `insert`: run the descent, force the root Black, rehash. -/
def insert (q : Int) (D : Tree) : Tree :=
  rehash H (make_black (ins H q D))

/-- Trees obtainable from the empty tree by a finite sequence of
insertions. -/
inductive Reachable : Tree → Prop
  | empty : Reachable .nil
  | step (q : Int) (T : Tree) : Reachable T → Reachable (insert H q T)

end Verifier

/-! ### Structural predicates used by the invariants -/

/-- The root of the tree is a Red node. -/
def isRed : Tree → Bool
  | .node .R _ _ _ _ _ => true
  | _ => false

/-- The root is Red and has a Red child: the local shape the balancer's
four patterns look for one level down. -/
def viol : Tree → Bool
  | .node .R l _ _ _ r => isRed l || isRed r
  | _ => false

/-- Whether one of the four balance patterns matches the node.  Every
pattern requires a Black root whose left (shapes 1, 2) or right
(shapes 3, 4) child is Red with a Red child of its own, i.e. `viol`;
a node with a Red or missing root matches none of the four patterns. -/
def shapeMatch : Tree → Bool
  | .node .B l _ _ _ r => viol l || viol r
  | _ => false

/-- Key membership. -/
def mem (x : Int) : Tree → Prop
  | .nil => False
  | .node _ l k _ _ r => mem x l ∨ x = k ∨ mem x r

/-- No Red node has a Red child, anywhere in the tree. -/
def noRR : Tree → Prop
  | .nil => True
  | .node c l _ _ _ r =>
      (c = .R → isRed l = false ∧ isRed r = false) ∧ noRR l ∧ noRR r

/-- Red-red violations confined to the root: both subtrees are clean, but
the root (possibly Red) may have a Red child.  This is the state of the
tree handed back up by `ins` before the parent's `balance`. -/
def almost : Tree → Prop
  | .nil => True
  | .node _ l _ _ _ r => noRR l ∧ noRR r

section Invariant

variable (H : Col → Int → Digest → Digest → Digest)

/-- The structural invariant every tree built by `insert` satisfies:
binary-search ordering (left keys at most the node key, right keys
strictly greater), digest coherence (the cached digests are the digests
of the actual children), Red nodes have two materialized children, and
every node has zero or two children (the tree is leaf-oriented). -/
def WF : Tree → Prop
  | .nil => True
  | .node c l k dL dR r =>
      (∀ j, mem j l → j ≤ k) ∧ (∀ j, mem j r → k < j) ∧
      dL = digest H l ∧ dR = digest H r ∧
      (c = .R → l ≠ .nil ∧ r ≠ .nil) ∧
      (l = .nil ↔ r = .nil) ∧ WF l ∧ WF r

end Invariant

/-- The nodes visited by `search`, root first: the node itself, then the
visited nodes of the child on the searched side. -/
def visited (q : Int) : Tree → List Tree
  | .nil => []
  | .node c l k dL dR r =>
      .node c l k dL dR r :: (if q ≤ k then visited q l else visited q r)

/-- The proof step a node contributes: exactly its color, key and two
cached child digests (the empty tree contributes a dummy, never used). -/
def stepOf : Tree → Step
  | .nil => (.B, 0, .emp, .emp)
  | .node c _ k dL dR _ => (c, k, dL, dR)

/-- Subtree relation. -/
inductive Subtree : Tree → Tree → Prop
  | refl (t : Tree) : Subtree t t
  | left (t : Tree) (c : Col) (l : Tree) (k : Int) (dL dR : Digest) (r : Tree) :
      Subtree t l → Subtree t (.node c l k dL dR r)
  | right (t : Tree) (c : Col) (l : Tree) (k : Int) (dL dR : Digest) (r : Tree) :
      Subtree t r → Subtree t (.node c l k dL dR r)

/-- A tree with stale cached digests at its only node: the payload claims
a non-sentinel left digest although the left child is empty. -/
def badTree : Tree := .node .B .nil 5 (Digest.mk .B 0 .emp .emp) .emp .nil

/-- A tree carrying a red-red violation in its right subtree, away from
the search path of key 5.  No insertion sequence produces it. -/
def oddTree : Tree :=
  .node .R (.node .B .nil 5 .emp .emp .nil) 10 .emp .emp
    (.node .R (.node .R .nil 20 .emp .emp .nil) 25 .emp .emp .nil)

/-- The tree of the spec's concrete scenario: keys 5, 3, 7, 9, 11 inserted
in that order into the empty tree, with the injective hash `Digest.mk`. -/
def demoTree : Tree :=
  insert Digest.mk 11 (insert Digest.mk 9 (insert Digest.mk 7
    (insert Digest.mk 3 (insert Digest.mk 5 .nil))))

/-! ### Basic lemmas -/

theorem isRed_false_shape {t : Tree} (h : isRed t = false) :
    t = .nil ∨ ∃ l k dL dR r, t = .node .B l k dL dR r := by
  cases t with
  | nil => exact Or.inl rfl
  | node c l k dL dR r =>
    cases c with
    | R => simp [isRed] at h
    | B => exact Or.inr ⟨l, k, dL, dR, r, rfl⟩

theorem viol_false_shape {t : Tree} (h : viol t = false) :
    isRed t = false ∨
      ∃ l k dL dR r, t = .node .R l k dL dR r ∧ isRed l = false ∧ isRed r = false := by
  cases t with
  | nil => exact Or.inl rfl
  | node c l k dL dR r =>
    cases c with
    | B => exact Or.inl rfl
    | R =>
      simp only [viol, Bool.or_eq_false_iff] at h
      exact Or.inr ⟨l, k, dL, dR, r, rfl, h.1, h.2⟩

theorem viol_false_of_noRR {t : Tree} (h : noRR t) : viol t = false := by
  cases t with
  | nil => rfl
  | node c l k dL dR r =>
    cases c with
    | B => rfl
    | R =>
      obtain ⟨hc, -, -⟩ := h
      simp [viol, (hc rfl).1, (hc rfl).2]

theorem exists_mem_of_ne_nil {t : Tree} (h : t ≠ .nil) : ∃ j, mem j t := by
  cases t with
  | nil => exact absurd rfl h
  | node c l k dL dR r => exact ⟨k, Or.inr (Or.inl rfl)⟩

section EngineLemmas

variable (H : Col → Int → Digest → Digest → Digest)

theorem rehash_node₂ {l r : Tree} (c : Col) (k : Int) (dL dR : Digest)
    (hl : l ≠ .nil) (hr : r ≠ .nil) :
    rehash H (.node c l k dL dR r) = .node c l k (digest H l) (digest H r) r := by
  simp [rehash, hl, hr]

theorem rehash_eq_self {t : Tree} (h : WF H t) : rehash H t = t := by
  cases t with
  | nil => rfl
  | node c l k dL dR r =>
    obtain ⟨-, -, hdl, hdr, -⟩ := h
    simp only [rehash]
    rcases eq_or_ne l .nil with h1 | h1 <;> rcases eq_or_ne r .nil with h2 | h2 <;>
      simp [h1, h2, hdl, hdr]

theorem balance_nil : balance H .nil = .nil := rfl

theorem balance_red (l : Tree) (k : Int) (dL dR : Digest) (r : Tree) :
    balance H (.node .R l k dL dR r) = rehash H (.node .R l k dL dR r) := rfl

theorem balance_shape1 (a b c d : Tree) (x y z : Int) (m n o p u v : Digest) :
    balance H (.node .B (.node .R (.node .R a x m n b) y u o c) z v p d)
      = rehash H (.node .R (.node .B a x m n b) y .emp .emp (.node .B c z o p d)) := by
  simp only [balance]

theorem balance_shape2 (a b c d : Tree) (x y z : Int) (m n o p v w : Digest)
    (ha : isRed a = false) :
    balance H (.node .B (.node .R a x m w (.node .R b y n o c)) z v p d)
      = rehash H (.node .R (.node .B a x m n b) y .emp .emp (.node .B c z o p d)) := by
  rcases isRed_false_shape ha with h | ⟨l1, k1, d1, d2, r1, h⟩ <;>
    subst h <;> simp only [balance]

theorem balance_shape3 (a b c d : Tree) (x y z : Int) (m n o p v w : Digest)
    (ha : viol a = false) :
    balance H (.node .B a x m w (.node .R (.node .R b y n o c) z v p d))
      = rehash H (.node .R (.node .B a x m n b) y .emp .emp (.node .B c z o p d)) := by
  rcases viol_false_shape ha with h | ⟨l1, k1, d1, d2, r1, h, hl1, hr1⟩
  · rcases isRed_false_shape h with h' | ⟨l1, k1, d1, d2, r1, h'⟩ <;>
      subst h' <;> simp only [balance]
  · subst h
    rcases isRed_false_shape hl1 with h' | ⟨l2, k2, d3, d4, r2, h'⟩ <;>
      rcases isRed_false_shape hr1 with h'' | ⟨l3, k3, d5, d6, r3, h''⟩ <;>
        subst h' <;> subst h'' <;> simp only [balance]

theorem balance_shape4 (a b c d : Tree) (x y z : Int) (m n o p w w' : Digest)
    (ha : viol a = false) (hb : isRed b = false) :
    balance H (.node .B a x m w (.node .R b y n w' (.node .R c z o p d)))
      = rehash H (.node .R (.node .B a x m n b) y .emp .emp (.node .B c z o p d)) := by
  rcases viol_false_shape ha with h | ⟨l1, k1, d1, d2, r1, h, hl1, hr1⟩
  · rcases isRed_false_shape h with h' | ⟨l1, k1, d1, d2, r1, h'⟩ <;> subst h' <;>
      rcases isRed_false_shape hb with hb' | ⟨l4, k4, d7, d8, r4, hb'⟩ <;>
        subst hb' <;> simp only [balance]
  · subst h
    rcases isRed_false_shape hl1 with h' | ⟨l2, k2, d3, d4, r2, h'⟩ <;>
      rcases isRed_false_shape hr1 with h'' | ⟨l3, k3, d5, d6, r3, h''⟩ <;>
        subst h' <;> subst h'' <;>
          rcases isRed_false_shape hb with hb' | ⟨l4, k4, d7, d8, r4, hb'⟩ <;>
            subst hb' <;> simp only [balance]

theorem balance_no_match (c : Col) {l r : Tree} (k : Int) (dL dR : Digest)
    (hl : viol l = false) (hr : viol r = false) :
    balance H (.node c l k dL dR r) = rehash H (.node c l k dL dR r) := by
  cases c with
  | R => rfl
  | B =>
    rcases viol_false_shape hl with h | ⟨l1, k1, d1, d2, r1, h, hl1, hr1⟩
    · rcases isRed_false_shape h with h' | ⟨l1, k1, d1, d2, r1, h'⟩ <;> subst h' <;>
        [skip; skip] <;>
        (rcases viol_false_shape hr with g | ⟨l5, k5, d9, da, r5, g, gl, gr⟩
         · rcases isRed_false_shape g with g' | ⟨l5, k5, d9, da, r5, g'⟩ <;>
             subst g' <;> simp only [balance]
         · subst g
           rcases isRed_false_shape gl with g' | ⟨l6, k6, db, dc, r6, g'⟩ <;>
             rcases isRed_false_shape gr with g'' | ⟨l7, k7, dd, de, r7, g''⟩ <;>
               subst g' <;> subst g'' <;> simp only [balance])
    · subst h
      rcases isRed_false_shape hl1 with h' | ⟨l2, k2, d3, d4, r2, h'⟩ <;>
        rcases isRed_false_shape hr1 with h'' | ⟨l3, k3, d5, d6, r3, h''⟩ <;>
          subst h' <;> subst h'' <;>
          (rcases viol_false_shape hr with g | ⟨l5, k5, d9, da, r5, g, gl, gr⟩
           · rcases isRed_false_shape g with g' | ⟨l5, k5, d9, da, r5, g'⟩ <;>
               subst g' <;> simp only [balance]
           · subst g
             rcases isRed_false_shape gl with g' | ⟨l6, k6, db, dc, r6, g'⟩ <;>
               rcases isRed_false_shape gr with g'' | ⟨l7, k7, dd, de, r7, g''⟩ <;>
                 subst g' <;> subst g'' <;> simp only [balance])

theorem balance_of_no_shape (cc : Col) (l r : Tree) (k : Int) (dL dR : Digest)
    (h : shapeMatch (.node cc l k dL dR r) = false) :
    balance H (.node cc l k dL dR r) = rehash H (.node cc l k dL dR r) := by
  cases cc with
  | R => rfl
  | B =>
    simp only [shapeMatch, Bool.or_eq_false_iff] at h
    exact balance_no_match H .B k dL dR h.1 h.2

end EngineLemmas

section Template

variable (H : Col → Int → Digest → Digest → Digest)

/-- All four balance shapes rewrite to the same form
`(R, (B, A, x, B2), y, (B, C, z, D2))` followed by `rehash`.  Under the
bindings' ordering, coherence and non-emptiness facts, the result is
well-formed, clean of red-red violations, and holds exactly the bindings'
keys. -/
theorem template_ok
    (A B2 C D2 : Tree) (X Y Z : Int) (mA nA oC pC : Digest)
    (hWA : WF H A) (hWB : WF H B2) (hWC : WF H C) (hWD : WF H D2)
    (hRA : noRR A) (hRB : noRR B2) (hRC : noRR C) (hRD : noRR D2)
    (hbA : ∀ j, mem j A → j ≤ X) (hbB : ∀ j, mem j B2 → X < j ∧ j ≤ Y)
    (hbC : ∀ j, mem j C → Y < j ∧ j ≤ Z) (hbD : ∀ j, mem j D2 → Z < j)
    (hXY : X < Y) (hYZ : Y < Z)
    (hdA : mA = digest H A) (hdB : nA = digest H B2)
    (hdC : oC = digest H C) (hdD : pC = digest H D2)
    (hAB : A = .nil ↔ B2 = .nil) (hCD : C = .nil ↔ D2 = .nil) :
    WF H (rehash H (.node .R (.node .B A X mA nA B2) Y .emp .emp
        (.node .B C Z oC pC D2))) ∧
    noRR (rehash H (.node .R (.node .B A X mA nA B2) Y .emp .emp
        (.node .B C Z oC pC D2))) ∧
    (∀ j, mem j (rehash H (.node .R (.node .B A X mA nA B2) Y .emp .emp
        (.node .B C Z oC pC D2))) ↔
      (mem j A ∨ j = X ∨ mem j B2) ∨ j = Y ∨ (mem j C ∨ j = Z ∨ mem j D2)) ∧
    rehash H (.node .R (.node .B A X mA nA B2) Y .emp .emp
        (.node .B C Z oC pC D2)) ≠ .nil ∧
    almost (rehash H (.node .R (.node .B A X mA nA B2) Y .emp .emp
        (.node .B C Z oC pC D2))) := by
  rw [rehash_node₂ H .R Y .emp .emp (by simp) (by simp)]
  refine ⟨?_, ?_, ?_, by simp, ?_⟩
  · refine ⟨?_, ?_, rfl, rfl, fun _ => ⟨by simp, by simp⟩, by simp, ?_, ?_⟩
    · intro j hj
      rcases hj with hj | hj | hj
      · exact le_of_lt (lt_of_le_of_lt (hbA j hj) hXY)
      · exact le_of_lt (hj ▸ hXY)
      · exact (hbB j hj).2
    · intro j hj
      rcases hj with hj | hj | hj
      · exact (hbC j hj).1
      · exact hj ▸ hYZ
      · exact lt_trans hYZ (hbD j hj)
    · exact ⟨hbA, fun j hj => (hbB j hj).1, hdA, hdB, by nofun, hAB, hWA, hWB⟩
    · exact ⟨fun j hj => (hbC j hj).2, hbD, hdC, hdD, by nofun, hCD, hWC, hWD⟩
  · exact ⟨fun _ => ⟨rfl, rfl⟩, ⟨by nofun, hRA, hRB⟩, ⟨by nofun, hRC, hRD⟩⟩
  · intro j
    simp [mem]
  · exact ⟨⟨by nofun, hRA, hRB⟩, ⟨by nofun, hRC, hRD⟩⟩

end Template

end ARB

namespace ARB

theorem isRed_true_shape {t : Tree} (h : isRed t = true) :
    ∃ l k dL dR r, t = .node .R l k dL dR r := by
  cases t with
  | nil => simp [isRed] at h
  | node c l k dL dR r =>
    cases c with
    | R => exact ⟨l, k, dL, dR, r, rfl⟩
    | B => simp [isRed] at h

section InsMain

variable (H : Col → Int → Digest → Digest → Digest)

theorem WF_leaf (k : Int) : WF H (.node .B .nil k .emp .emp .nil) :=
  ⟨fun _ h => h.elim, fun _ h => h.elim, rfl, rfl, by nofun, Iff.rfl, trivial, trivial⟩

theorem noRR_leaf (k : Int) : noRR (.node .B .nil k .emp .emp .nil) :=
  ⟨by nofun, trivial, trivial⟩

theorem or_regroupB (P S F G : Prop) : ((P ∨ S) ∨ F ∨ G) ↔ ((P ∨ F ∨ G) ∨ S) := by tauto

theorem or_regroupD (A K P S : Prop) : (A ∨ K ∨ (P ∨ S)) ↔ ((A ∨ K ∨ P) ∨ S) := by tauto

theorem or_regroupA (A B C D E F G : Prop) :
    ((A ∨ B ∨ C) ∨ D ∨ (E ∨ F ∨ G)) ↔ (((A ∨ B ∨ C) ∨ D ∨ E) ∨ F ∨ G) := by tauto

theorem or_regroupF (L X B2 Y C2 K Bb : Prop) :
    ((L ∨ X ∨ B2) ∨ Y ∨ (C2 ∨ K ∨ Bb)) ↔ ((L ∨ X ∨ (B2 ∨ Y ∨ C2)) ∨ K ∨ Bb) := by tauto

theorem or_regroupC (A K B3 Y C3 X R : Prop) :
    ((A ∨ K ∨ B3) ∨ Y ∨ (C3 ∨ X ∨ R)) ↔ (A ∨ K ∨ ((B3 ∨ Y ∨ C3) ∨ X ∨ R)) := by tauto

theorem or_regroupE (A K L X C Z D : Prop) :
    ((A ∨ K ∨ L) ∨ X ∨ (C ∨ Z ∨ D)) ↔ (A ∨ K ∨ (L ∨ X ∨ (C ∨ Z ∨ D))) := by tauto

theorem ins_main (q : Int) : ∀ T, WF H T → noRR T →
    WF H (ins H q T) ∧ almost (ins H q T) ∧
    (isRed T = false → noRR (ins H q T)) ∧
    (∀ j, mem j (ins H q T) ↔ (mem j T ∨ j = q)) ∧ ins H q T ≠ .nil := by
  intro T
  induction T with
  | nil =>
    intro _ _
    refine ⟨?_, ?_, ?_, ?_, ?_⟩ <;>
      simp [ins, WF, almost, noRR, mem, digest, isRed]
  | node c a k dL dR b iha ihb =>
    intro hWF hRR
    obtain ⟨hal, har, hdl, hdr, hred, hiff, hWFa, hWFb⟩ := hWF
    obtain ⟨hcc, hRRa, hRRb⟩ := hRR
    by_cases hqk : q = k
    · have hres : ins H q (.node c a k dL dR b) = .node c a k dL dR b := by
        simp only [ins, if_pos hqk]
      rw [hres]
      subst hqk
      refine ⟨⟨hal, har, hdl, hdr, hred, hiff, hWFa, hWFb⟩, ⟨hRRa, hRRb⟩,
        fun _ => ⟨hcc, hRRa, hRRb⟩, fun j => ?_, by nofun⟩
      clear iha ihb
      simp only [mem]
      tauto
    · by_cases h1 : q < k ∧ a = .nil
      · obtain ⟨hqlt, ha⟩ := h1
        subst ha
        have hb : b = .nil := hiff.mp rfl
        subst hb
        have hcB : c = .B := by
          cases c with
          | B => rfl
          | R => exact absurd rfl (hred rfl).1
        subst hcB
        simp only [digest] at hdl hdr
        subst hdl; subst hdr
        clear iha ihb
        have hres : ins H q (.node .B .nil k .emp .emp .nil)
            = .node .R (.node .B .nil q .emp .emp .nil) q (H .B q .emp .emp)
              (H .B k .emp .emp) (.node .B .nil k .emp .emp .nil) := by
          simp only [ins, make_black]
          rw [if_neg hqk, if_pos ⟨hqlt, by trivial⟩]
          rw [rehash_node₂ H .R q .emp .emp (by nofun) (by nofun)]
          rw [balance_red, rehash_node₂ H .R q _ _ (by nofun) (by nofun)]
          simp [digest]
        rw [hres]
        refine ⟨?_, ⟨noRR_leaf q, noRR_leaf k⟩,
          fun _ => ⟨fun _ => ⟨rfl, rfl⟩, noRR_leaf q, noRR_leaf k⟩, ?_, by nofun⟩
        · refine ⟨fun j hj => ?_, fun j hj => ?_, rfl, rfl,
            fun _ => ⟨by nofun, by nofun⟩, by simp, WF_leaf H q, WF_leaf H k⟩
          · simp [mem] at hj; omega
          · simp [mem] at hj; omega
        · intro j
          simp only [mem]
          constructor
          · rintro ((h | h | h) | h | (h | h | h)) <;> first | exact h.elim | omega
          · rintro ((h | h | h) | h) <;> first | exact h.elim | omega
      · by_cases h2 : k < q ∧ b = .nil
        · obtain ⟨hqgt, hb⟩ := h2
          subst hb
          have ha : a = .nil := hiff.mpr rfl
          subst ha
          have hcB : c = .B := by
            cases c with
            | B => rfl
            | R => exact absurd rfl (hred rfl).1
          subst hcB
          simp only [digest] at hdl hdr
          subst hdl; subst hdr
          clear iha ihb
          have hres : ins H q (.node .B .nil k .emp .emp .nil)
              = .node .R (.node .B .nil k .emp .emp .nil) k (H .B k .emp .emp)
                (H .B q .emp .emp) (.node .B .nil q .emp .emp .nil) := by
            simp only [ins, make_black]
            rw [if_neg hqk, if_neg (fun h => absurd hqgt (by omega : ¬ k < q))]
            rw [if_pos ⟨hqgt, by trivial⟩]
            rw [rehash_node₂ H .R k .emp .emp (by nofun) (by nofun)]
            rw [balance_red, rehash_node₂ H .R k _ _ (by nofun) (by nofun)]
            simp [digest]
          rw [hres]
          refine ⟨?_, ⟨noRR_leaf k, noRR_leaf q⟩,
            fun _ => ⟨fun _ => ⟨rfl, rfl⟩, noRR_leaf k, noRR_leaf q⟩, ?_, by nofun⟩
          · refine ⟨fun j hj => ?_, fun j hj => ?_, rfl, rfl,
              fun _ => ⟨by nofun, by nofun⟩, by simp, WF_leaf H k, WF_leaf H q⟩
            · simp [mem] at hj; omega
            · simp [mem] at hj; omega
          · intro j
            simp only [mem]
            constructor
            · rintro ((h | h | h) | h | (h | h | h)) <;> first | exact h.elim | omega
            · rintro ((h | h | h) | h) <;> first | exact h.elim | omega
        · by_cases h3 : q < k
          · have ha : a ≠ .nil := fun h => h1 ⟨h3, h⟩
            have hb : b ≠ .nil := fun h => ha (hiff.mpr h)
            obtain ⟨ihWF, ihAl, ihRR, ihmem, ihne⟩ := iha hWFa hRRa
            clear iha ihb
            have hres : ins H q (.node c a k dL dR b)
                = balance H (.node c (ins H q a) k dL dR b) := by
              simp only [ins]
              rw [if_neg hqk, if_neg (fun h => ha h.2), if_neg (fun h => absurd h.1 (by omega)),
                if_pos h3]
            have hmemle : ∀ j, mem j (ins H q a) → j ≤ k := by
              intro j hj
              rcases (ihmem j).mp hj with h | h
              · exact hal j h
              · omega
            cases c with
            | R =>
              obtain ⟨hia, hib⟩ := hcc rfl
              have hnra : noRR (ins H q a) := ihRR hia
              rw [hres, balance_red, rehash_node₂ H .R k dL dR ihne hb]
              refine ⟨⟨hmemle, har, rfl, rfl, fun _ => ⟨ihne, hb⟩,
                iff_of_false ihne hb, ihWF, hWFb⟩, ⟨hnra, hRRb⟩,
                fun h => by simp [isRed] at h, ?_, by nofun⟩
              intro j
              simp only [mem, ihmem j]
              exact or_regroupB _ _ _ _
            | B =>
              by_cases hv : noRR (ins H q a)
              · rw [hres,
                  balance_no_match H .B k dL dR (viol_false_of_noRR hv) (viol_false_of_noRR hRRb),
                  rehash_node₂ H .B k dL dR ihne hb]
                refine ⟨⟨hmemle, har, rfl, rfl, by nofun, iff_of_false ihne hb, ihWF, hWFb⟩,
                  ⟨hv, hRRb⟩, fun _ => ⟨by nofun, hv, hRRb⟩, ?_, by nofun⟩
                intro j
                simp only [mem, ihmem j]
                exact or_regroupB _ _ _ _
              · rcases hshape : ins H q a with _ | ⟨c', l', x', m', n', r'⟩
                · exact absurd hshape ihne
                · rw [hshape] at hres ihWF hv ihne
                  obtain ⟨hRl', hRr'⟩ : noRR l' ∧ noRR r' := by
                    rw [hshape] at ihAl
                    exact ihAl
                  simp only [hshape] at ihmem hmemle
                  have hc' : c' = .R := by
                    cases c' with
                    | R => rfl
                    | B => exact absurd ⟨by nofun, hRl', hRr'⟩ hv
                  subst hc'
                  obtain ⟨hbl', hbr', hm', hn', hrnn, hiff', hWFl', hWFr'⟩ := ihWF
                  cases hil : isRed l' with
                  | true =>
                    obtain ⟨a₁, x₁, m₁, n₁, b₁, hl'⟩ := isRed_true_shape hil
                    subst hl'
                    obtain ⟨hca₁, hra₁, hrb₁⟩ := hRl'
                    obtain ⟨hba₁, hbb₁, hm₁, hn₁, hrnn₁, hiff₁, hWa₁, hWb₁⟩ := hWFl'
                    rw [balance_shape1 H a₁ b₁ r' b x₁ x' k m₁ n₁ n' dR m' dL] at hres
                    have hr'ne : r' ≠ .nil := (hrnn rfl).2
                    have hb₁ne : b₁ ≠ .nil := (hrnn₁ rfl).2
                    have hx₁x' : x₁ < x' := by
                      obtain ⟨j, hj⟩ := exists_mem_of_ne_nil hb₁ne
                      have g1 := hbb₁ j hj
                      have g2 := hbl' j (Or.inr (Or.inr hj))
                      omega
                    have hx'k : x' < k := by
                      obtain ⟨j, hj⟩ := exists_mem_of_ne_nil hr'ne
                      have g1 := hbr' j hj
                      have g2 := hmemle j (Or.inr (Or.inr hj))
                      omega
                    rw [hres]
                    obtain ⟨tWF, tRR, tmem, tne, tal⟩ :=
                      template_ok H a₁ b₁ r' b x₁ x' k m₁ n₁ n' dR hWa₁ hWb₁ hWFr' hWFb
                        hra₁ hrb₁ hRr' hRRb hba₁
                        (fun j hj => ⟨hbb₁ j hj, hbl' j (Or.inr (Or.inr hj))⟩)
                        (fun j hj => ⟨hbr' j hj, hmemle j (Or.inr (Or.inr hj))⟩)
                        har hx₁x' hx'k hm₁ hn₁ hn' hdr hiff₁ (iff_of_false hr'ne hb)
                    refine ⟨tWF, tal, fun _ => tRR, ?_, tne⟩
                    intro j
                    rw [tmem j]
                    have h9 := ihmem j
                    simp only [mem] at h9 ⊢
                    rw [or_regroupA, h9, or_regroupB]
                  | false =>
                    have hir : isRed r' = true := by
                      cases hir : isRed r' with
                      | true => rfl
                      | false => exact absurd ⟨fun _ => ⟨hil, hir⟩, hRl', hRr'⟩ hv
                    obtain ⟨b₂, y₂, m₂, n₂, c₂, hr'⟩ := isRed_true_shape hir
                    subst hr'
                    obtain ⟨hcc₂, hrb₂, hrc₂⟩ := hRr'
                    obtain ⟨hbb₂, hbc₂, hm₂, hn₂, hrnn₂, hiff₂, hWb₂, hWc₂⟩ := hWFr'
                    rw [balance_shape2 H l' b₂ c₂ b x' y₂ k m' m₂ n₂ dR dL n' hil] at hres
                    have hl'ne : l' ≠ .nil := (hrnn rfl).1
                    have hb₂ne : b₂ ≠ .nil := (hrnn₂ rfl).1
                    have hc₂ne : c₂ ≠ .nil := (hrnn₂ rfl).2
                    have hx'y₂ : x' < y₂ := hbr' y₂ (Or.inr (Or.inl rfl))
                    have hy₂k : y₂ < k := by
                      obtain ⟨j, hj⟩ := exists_mem_of_ne_nil hc₂ne
                      have g1 := hbc₂ j hj
                      have g2 := hmemle j (Or.inr (Or.inr (Or.inr (Or.inr hj))))
                      omega
                    rw [hres]
                    obtain ⟨tWF, tRR, tmem, tne, tal⟩ :=
                      template_ok H l' b₂ c₂ b x' y₂ k m' m₂ n₂ dR hWFl' hWb₂ hWc₂ hWFb
                        hRl' hrb₂ hrc₂ hRRb hbl'
                        (fun j hj => ⟨hbr' j (Or.inl hj), hbb₂ j hj⟩)
                        (fun j hj => ⟨hbc₂ j hj, hmemle j (Or.inr (Or.inr (Or.inr (Or.inr hj))))⟩)
                        har hx'y₂ hy₂k hm' hm₂ hn₂ hdr (iff_of_false hl'ne hb₂ne)
                        (iff_of_false hc₂ne hb)
                    refine ⟨tWF, tal, fun _ => tRR, ?_, tne⟩
                    intro j
                    rw [tmem j]
                    have h9 := ihmem j
                    simp only [mem] at h9 ⊢
                    rw [or_regroupF, h9, or_regroupB]
          · have hqgt : k < q := by omega
            have hbne : b ≠ .nil := fun h => h2 ⟨hqgt, h⟩
            have hane : a ≠ .nil := fun h => hbne (hiff.mp h)
            obtain ⟨ihWF, ihAl, ihRR, ihmem, ihne⟩ := ihb hWFb hRRb
            clear iha ihb
            have hres : ins H q (.node c a k dL dR b)
                = balance H (.node c a k dL dR (ins H q b)) := by
              simp only [ins]
              rw [if_neg hqk, if_neg (fun h => absurd h.1 h3), if_neg (fun h => hbne h.2),
                if_neg h3]
            have hmemgt : ∀ j, mem j (ins H q b) → k < j := by
              intro j hj
              rcases (ihmem j).mp hj with h | h
              · exact har j h
              · omega
            cases c with
            | R =>
              obtain ⟨hia, hib⟩ := hcc rfl
              have hnrb : noRR (ins H q b) := ihRR hib
              rw [hres, balance_red, rehash_node₂ H .R k dL dR hane ihne]
              refine ⟨⟨hal, hmemgt, rfl, rfl, fun _ => ⟨hane, ihne⟩,
                iff_of_false hane ihne, hWFa, ihWF⟩, ⟨hRRa, hnrb⟩,
                fun h => by simp [isRed] at h, ?_, by nofun⟩
              intro j
              simp only [mem, ihmem j]
              exact or_regroupD _ _ _ _
            | B =>
              by_cases hv : noRR (ins H q b)
              · rw [hres,
                  balance_no_match H .B k dL dR (viol_false_of_noRR hRRa) (viol_false_of_noRR hv),
                  rehash_node₂ H .B k dL dR hane ihne]
                refine ⟨⟨hal, hmemgt, rfl, rfl, by nofun, iff_of_false hane ihne, hWFa, ihWF⟩,
                  ⟨hRRa, hv⟩, fun _ => ⟨by nofun, hRRa, hv⟩, ?_, by nofun⟩
                intro j
                simp only [mem, ihmem j]
                exact or_regroupD _ _ _ _
              · rcases hshape : ins H q b with _ | ⟨c', l', x', m', n', r'⟩
                · exact absurd hshape ihne
                · rw [hshape] at hres ihWF hv ihne
                  obtain ⟨hRl', hRr'⟩ : noRR l' ∧ noRR r' := by
                    rw [hshape] at ihAl
                    exact ihAl
                  simp only [hshape] at ihmem hmemgt
                  have hc' : c' = .R := by
                    cases c' with
                    | R => rfl
                    | B => exact absurd ⟨by nofun, hRl', hRr'⟩ hv
                  subst hc'
                  obtain ⟨hbl', hbr', hm', hn', hrnn, hiff', hWFl', hWFr'⟩ := ihWF
                  cases hil : isRed l' with
                  | true =>
                    obtain ⟨b₃, y₃, m₃, n₃, c₃, hl'⟩ := isRed_true_shape hil
                    subst hl'
                    obtain ⟨hcc₃, hrb₃, hrc₃⟩ := hRl'
                    obtain ⟨hbb₃, hbc₃, hm₃, hn₃, hrnn₃, hiff₃, hWb₃, hWc₃⟩ := hWFl'
                    rw [balance_shape3 H a b₃ c₃ r' k y₃ x' dL m₃ n₃ n' m' dR
                      (viol_false_of_noRR hRRa)] at hres
                    have hr'ne : r' ≠ .nil := (hrnn rfl).2
                    have hb₃ne : b₃ ≠ .nil := (hrnn₃ rfl).1
                    have hc₃ne : c₃ ≠ .nil := (hrnn₃ rfl).2
                    have hky₃ : k < y₃ := hmemgt y₃ (Or.inl (Or.inr (Or.inl rfl)))
                    have hy₃x' : y₃ < x' := by
                      obtain ⟨j, hj⟩ := exists_mem_of_ne_nil hc₃ne
                      have g1 := hbc₃ j hj
                      have g2 := hbl' j (Or.inr (Or.inr hj))
                      omega
                    rw [hres]
                    obtain ⟨tWF, tRR, tmem, tne, tal⟩ :=
                      template_ok H a b₃ c₃ r' k y₃ x' dL m₃ n₃ n' hWFa hWb₃ hWc₃ hWFr'
                        hRRa hrb₃ hrc₃ hRr' hal
                        (fun j hj => ⟨hmemgt j (Or.inl (Or.inl hj)), hbb₃ j hj⟩)
                        (fun j hj => ⟨hbc₃ j hj, hbl' j (Or.inr (Or.inr hj))⟩)
                        hbr' hky₃ hy₃x' hdl hm₃ hn₃ hn' (iff_of_false hane hb₃ne)
                        (iff_of_false hc₃ne hr'ne)
                    refine ⟨tWF, tal, fun _ => tRR, ?_, tne⟩
                    intro j
                    rw [tmem j]
                    have h9 := ihmem j
                    simp only [mem] at h9 ⊢
                    rw [or_regroupC, h9, or_regroupD]
                  | false =>
                    have hir : isRed r' = true := by
                      cases hir : isRed r' with
                      | true => rfl
                      | false => exact absurd ⟨fun _ => ⟨hil, hir⟩, hRl', hRr'⟩ hv
                    obtain ⟨c₄, z₄, o₄, p₄, d₄, hr'⟩ := isRed_true_shape hir
                    subst hr'
                    obtain ⟨hcc₄, hrc₄, hrd₄⟩ := hRr'
                    obtain ⟨hbc₄, hbd₄, ho₄, hp₄, hrnn₄, hiff₄, hWc₄, hWd₄⟩ := hWFr'
                    rw [balance_shape4 H a l' c₄ d₄ k x' z₄ dL m' o₄ p₄ dR n'
                      (viol_false_of_noRR hRRa) hil] at hres
                    have hl'ne : l' ≠ .nil := (hrnn rfl).1
                    have hc₄ne : c₄ ≠ .nil := (hrnn₄ rfl).1
                    have hd₄ne : d₄ ≠ .nil := (hrnn₄ rfl).2
                    have hkx' : k < x' := hmemgt x' (Or.inr (Or.inl rfl))
                    have hx'z₄ : x' < z₄ := hbr' z₄ (Or.inr (Or.inl rfl))
                    rw [hres]
                    obtain ⟨tWF, tRR, tmem, tne, tal⟩ :=
                      template_ok H a l' c₄ d₄ k x' z₄ dL m' o₄ p₄ hWFa hWFl' hWc₄ hWd₄
                        hRRa hRl' hrc₄ hrd₄ hal
                        (fun j hj => ⟨hmemgt j (Or.inl hj), hbl' j hj⟩)
                        (fun j hj => ⟨hbr' j (Or.inl hj), hbc₄ j hj⟩)
                        (fun j hj => hbd₄ j hj) hkx' hx'z₄ hdl hm' ho₄ hp₄
                        (iff_of_false hane hl'ne) (iff_of_false hc₄ne hd₄ne)
                    refine ⟨tWF, tal, fun _ => tRR, ?_, tne⟩
                    intro j
                    rw [tmem j]
                    have h9 := ihmem j
                    simp only [mem] at h9 ⊢
                    rw [or_regroupE, h9, or_regroupD]

theorem insert_pack (q : Int) (T : Tree) (hWF : WF H T) (hRR : noRR T) :
    WF H (insert H q T) ∧ noRR (insert H q T) ∧ isRed (insert H q T) = false ∧
    (∀ j, mem j (insert H q T) ↔ (mem j T ∨ j = q)) ∧ insert H q T ≠ .nil := by
  obtain ⟨hWFi, hAl, -, hmem, hne⟩ := ins_main H q T hWF hRR
  rcases hshape : ins H q T with _ | ⟨c', l', x', m', n', r'⟩
  · exact absurd hshape hne
  · rw [hshape] at hWFi hAl
    simp only [hshape] at hmem
    obtain ⟨hbl', hbr', hm', hn', hrnn', hiff', hWFl', hWFr'⟩ := hWFi
    obtain ⟨hRl', hRr'⟩ := hAl
    have hmb : insert H q T = rehash H (.node .B l' x' m' n' r') := by
      simp only [insert, hshape, make_black]
    have hWFmb : WF H (.node .B l' x' m' n' r') :=
      ⟨hbl', hbr', hm', hn', by nofun, hiff', hWFl', hWFr'⟩
    rw [hmb, rehash_eq_self H hWFmb]
    refine ⟨hWFmb, ⟨by nofun, hRl', hRr'⟩, rfl, ?_, by nofun⟩
    intro j
    have := hmem j
    simp only [mem] at this ⊢
    exact this

theorem reachable_pack {T : Tree} (h : Reachable H T) :
    WF H T ∧ noRR T ∧ isRed T = false := by
  induction h with
  | empty => exact ⟨trivial, trivial, rfl⟩
  | step q T _ ih =>
    obtain ⟨hWF, hRR, -⟩ := ih
    obtain ⟨h1, h2, h3, -, -⟩ := insert_pack H q T hWF hRR
    exact ⟨h1, h2, h3⟩

theorem search_le {q k : Int} (hq : q ≤ k) (c : Col) (l : Tree) (dL dR : Digest)
    (r : Tree) : search q (.node c l k dL dR r) = (c, k, dL, dR) :: search q l := by
  simp [search, hq]

theorem search_gt {q k : Int} (hq : ¬ q ≤ k) (c : Col) (l : Tree) (dL dR : Digest)
    (r : Tree) : search q (.node c l k dL dR r) = (c, k, dL, dR) :: search q r := by
  simp [search, hq]

/-- Replaying `search` over the spine reconstructed from a search proof of
a well-formed tree reproduces the proof; moreover the spine is empty
exactly when the tree is, and otherwise shares the root's color, key and
cached digests. -/
theorem roundtrip (q : Int) : ∀ T, WF H T →
    ∃ S, reconstruct H (search q T) = some S ∧ search q S = search q T ∧
      ((T = .nil ∧ S = .nil) ∨
        ∃ c l k dL dR r l2 r2, T = .node c l k dL dR r ∧ S = .node c l2 k dL dR r2) := by
  intro T
  induction T with
  | nil =>
    intro _
    exact ⟨.nil, rfl, rfl, Or.inl ⟨rfl, rfl⟩⟩
  | node c l k dL dR r ihl ihr =>
    intro hWF
    obtain ⟨hal, har, hdl, hdr, hred, hiff, hWFl, hWFr⟩ := hWF
    by_cases hln : l = .nil
    · have hrn : r = .nil := hiff.mp hln
      subst hln; subst hrn
      simp only [digest] at hdl hdr
      subst hdl; subst hdr
      have hsrch : search q (.node c .nil k .emp .emp .nil) = [(c, k, .emp, .emp)] := by
        simp [search]
      refine ⟨.node c .nil k .emp .emp .nil, ?_, rfl,
        Or.inr ⟨c, .nil, k, .emp, .emp, .nil, .nil, .nil, rfl, rfl⟩⟩
      rw [hsrch]
      simp [reconstruct]
    · have hrn : r ≠ .nil := fun h => hln (hiff.mpr h)
      by_cases hq : q ≤ k
      · obtain ⟨S₀, hrec, hsr, hsh⟩ := ihl hWFl
        rcases hsh with ⟨h0, -⟩ | ⟨c₀, ll, k₀, dl₀, dr₀, lr, l2, r2, hl, hS₀⟩
        · exact absurd h0 hln
        · subst hS₀
          have hk₀ : k₀ ≤ k := hal k₀ (by rw [hl]; exact Or.inr (Or.inl rfl))
          have hdig : dL = digest H (.node c₀ l2 k₀ dl₀ dr₀ r2) := by
            rw [hdl, hl]; rfl
          have hsrch : search q (.node c l k dL dR r) = (c, k, dL, dR) :: search q l := by
            simp [search, hq]
          refine ⟨.node c (.node c₀ l2 k₀ dl₀ dr₀ r2) k dL dR .nil, ?_, ?_,
            Or.inr ⟨c, l, k, dL, dR, r, _, _, rfl, rfl⟩⟩
          · rw [hsrch]
            simp only [reconstruct, hrec]
            rw [if_pos hk₀, if_pos hdig]
          · rw [hsrch, search_le hq, hsr]
      · obtain ⟨S₀, hrec, hsr, hsh⟩ := ihr hWFr
        rcases hsh with ⟨h0, -⟩ | ⟨c₀, rl, k₀, dl₀, dr₀, rr, l2, r2, hl, hS₀⟩
        · exact absurd h0 hrn
        · subst hS₀
          have hk₀ : k < k₀ := har k₀ (by rw [hl]; exact Or.inr (Or.inl rfl))
          have hdig : dR = digest H (.node c₀ l2 k₀ dl₀ dr₀ r2) := by
            rw [hdr, hl]; rfl
          have hsrch : search q (.node c l k dL dR r) = (c, k, dL, dR) :: search q r := by
            simp [search, hq]
          refine ⟨.node c .nil k dL dR (.node c₀ l2 k₀ dl₀ dr₀ r2), ?_, ?_,
            Or.inr ⟨c, l, k, dL, dR, r, _, _, rfl, rfl⟩⟩
          · rw [hsrch]
            simp only [reconstruct, hrec]
            rw [if_neg (by omega), if_pos hdig]
          · rw [hsrch, search_gt hq, hsr]

/-- If the key is already present in a well-formed tree, `ins` walks down
to it and hands the tree back unchanged. -/
theorem ins_found (q : Int) : ∀ T, WF H T → noRR T → mem q T → ins H q T = T := by
  intro T
  induction T with
  | nil => intro _ _ h; exact h.elim
  | node c a k dL dR b iha ihb =>
    intro hWF hRR hq
    obtain ⟨hal, har, hdl, hdr, hred, hiff, hWFa, hWFb⟩ := hWF
    obtain ⟨hcc, hRRa, hRRb⟩ := hRR
    by_cases hqk : q = k
    · simp only [ins, if_pos hqk]
    · have hWF' : WF H (.node c a k dL dR b) :=
        ⟨hal, har, hdl, hdr, hred, hiff, hWFa, hWFb⟩
      have hq' : mem q a ∨ q = k ∨ mem q b := hq
      rcases hq' with hq' | hq' | hq'
      · have hlt : q < k := lt_of_le_of_ne (hal q hq') hqk
        have ha : a ≠ .nil := fun h => by rw [h] at hq'; exact hq'
        have hres : ins H q (.node c a k dL dR b)
            = balance H (.node c (ins H q a) k dL dR b) := by
          simp only [ins]
          rw [if_neg hqk, if_neg (fun h => ha h.2), if_neg (fun h => absurd h.1 (by omega)),
            if_pos hlt]
        rw [hres, iha hWFa hRRa hq',
          balance_no_match H c k dL dR (viol_false_of_noRR hRRa) (viol_false_of_noRR hRRb),
          rehash_eq_self H hWF']
      · exact absurd hq' hqk
      · have hgt : k < q := har q hq'
        have hb : b ≠ .nil := fun h => by rw [h] at hq'; exact hq'
        have hres : ins H q (.node c a k dL dR b)
            = balance H (.node c a k dL dR (ins H q b)) := by
          simp only [ins]
          rw [if_neg hqk, if_neg (fun h => absurd h.1 (by omega)), if_neg (fun h => hb h.2),
            if_neg (by omega)]
        rw [hres, ihb hWFb hRRb hq',
          balance_no_match H c k dL dR (viol_false_of_noRR hRRa) (viol_false_of_noRR hRRb),
          rehash_eq_self H hWF']

/-- Inserting a key already present in a well-formed black-rooted tree is
a no-op. -/
theorem insert_found (q : Int) (T : Tree) (hWF : WF H T) (hRR : noRR T)
    (hrb : isRed T = false) (hq : mem q T) : insert H q T = T := by
  have h1 : ins H q T = T := ins_found H q T hWF hRR hq
  rcases T with _ | ⟨c, a, k, dL, dR, b⟩
  · exact hq.elim
  · have hc : c = .B := by
      cases c with
      | R => simp [isRed] at hrb
      | B => rfl
    subst hc
    simp only [insert, h1, make_black]
    exact rehash_eq_self H hWF

theorem reconstruct_eq_nil : ∀ {t : List Step}, reconstruct H t = some .nil → t = [] := by
  intro t h
  cases t with
  | nil => rfl
  | cons s t =>
    obtain ⟨c, k, hL, hR⟩ := s
    simp only [reconstruct] at h
    rcases hx : reconstruct H t with _ | ch
    · simp only [hx] at h
      exact absurd h (by simp)
    · cases ch with
      | nil =>
        simp only [hx] at h
        split_ifs at h <;> simp at h
      | node c2 l2 k2 d2 e2 r2 =>
        simp only [hx] at h
        split_ifs at h <;> simp at h

/-- The spine produced by a verifying proof has digest read off the first
step, and the remaining proof is itself a verifying chain for the child on
the searched side (or the step is the landing leaf). -/
theorem chain_side (q : Int) (c1 : Col) (k1 : Int) (hL hR : Digest) (t : List Step)
    (r : Tree) (hrec : reconstruct H ((c1, k1, hL, hR) :: t) = some r)
    (hs : search q r = (c1, k1, hL, hR) :: t) :
    digest H r = H c1 k1 hL hR ∧
    (q ≤ k1 → (t = [] ∧ hL = .emp) ∨
      (∃ ch, ch ≠ .nil ∧ reconstruct H t = some ch ∧ search q ch = t ∧ hL = digest H ch)) ∧
    (¬ q ≤ k1 → (t = [] ∧ hR = .emp) ∨
      (∃ ch, ch ≠ .nil ∧ reconstruct H t = some ch ∧ search q ch = t ∧ hR = digest H ch)) := by
  simp only [reconstruct] at hrec
  rcases hx : reconstruct H t with _ | ch
  · simp only [hx] at hrec
    exact absurd hrec (by simp)
  · cases ch with
    | nil =>
      have ht : t = [] := reconstruct_eq_nil H hx
      simp only [hx] at hrec
      split_ifs at hrec with hLR
      obtain rfl : Tree.node c1 .nil k1 hL hR .nil = r := Option.some.inj hrec
      exact ⟨rfl, fun _ => Or.inl ⟨ht, hLR.1⟩, fun _ => Or.inl ⟨ht, hLR.2⟩⟩
    | node c2 l2 k2 d2 e2 r2 =>
      simp only [hx] at hrec
      split_ifs at hrec with h1 h2 h3
      · obtain rfl : Tree.node c1 (.node c2 l2 k2 d2 e2 r2) k1 hL hR .nil = r :=
          Option.some.inj hrec
        refine ⟨rfl, fun hq =>
          Or.inr ⟨.node c2 l2 k2 d2 e2 r2, by simp, rfl, ?_, h2⟩, fun hq => ?_⟩
        · rw [search_le hq] at hs
          exact (List.cons.inj hs).2
        · rw [search_gt hq] at hs
          have ht : ([] : List Step) = t := (List.cons.inj hs).2
          rw [← ht] at hx
          exact absurd (Option.some.inj hx) (by simp)
      · obtain rfl : Tree.node c1 .nil k1 hL hR (.node c2 l2 k2 d2 e2 r2) = r :=
          Option.some.inj hrec
        refine ⟨rfl, fun hq => ?_,
          fun hq => Or.inr ⟨.node c2 l2 k2 d2 e2 r2, by simp, rfl, ?_, h3⟩⟩
        · rw [search_le hq] at hs
          have ht : ([] : List Step) = t := (List.cons.inj hs).2
          rw [← ht] at hx
          exact absurd (Option.some.inj hx) (by simp)
        · rw [search_gt hq] at hs
          exact (List.cons.inj hs).2

/-- With an injective hash that never collides with the empty sentinel,
two verifying chains for the same query and digest are the same proof. -/
theorem chain_det
    (hinj : ∀ c k dL dR c' k' dL' dR', H c k dL dR = H c' k' dL' dR' →
      c = c' ∧ k = k' ∧ dL = dL' ∧ dR = dR')
    (hne : ∀ c k dL dR, H c k dL dR ≠ .emp) (q : Int) :
    ∀ p p' (r r' : Tree), reconstruct H p = some r → search q r = p →
      reconstruct H p' = some r' → search q r' = p' →
      digest H r = digest H r' → p = p' := by
  intro p
  induction p with
  | nil =>
    intro p' r r' hrec hs hrec' hs' hd
    have hr : r = .nil := (Option.some.inj hrec).symm
    subst hr
    cases p' with
    | nil => rfl
    | cons s' t' =>
      obtain ⟨c1, k1, hL, hR⟩ := s'
      obtain ⟨hdig', -, -⟩ := chain_side H q c1 k1 hL hR t' r' hrec' hs'
      rw [hdig'] at hd
      exact absurd hd.symm (hne c1 k1 hL hR)
  | cons s t ih =>
    intro p' r r' hrec hs hrec' hs' hd
    obtain ⟨c1, k1, hL, hR⟩ := s
    obtain ⟨hdig, hsideL, hsideR⟩ := chain_side H q c1 k1 hL hR t r hrec hs
    cases p' with
    | nil =>
      have hr' : r' = .nil := (Option.some.inj hrec').symm
      subst hr'
      rw [hdig] at hd
      exact absurd hd (hne c1 k1 hL hR)
    | cons s' t' =>
      obtain ⟨c1', k1', hL', hR'⟩ := s'
      obtain ⟨hdig', hsideL', hsideR'⟩ := chain_side H q c1' k1' hL' hR' t' r' hrec' hs'
      rw [hdig, hdig'] at hd
      obtain ⟨hc, hk, hdL, hdR⟩ := hinj _ _ _ _ _ _ _ _ hd
      subst hc; subst hk; subst hdL; subst hdR
      by_cases hq : q ≤ k1
      · rcases hsideL hq with ⟨ht, hLe⟩ | ⟨ch, hchne, hchrec, hchs, hchd⟩ <;>
          rcases hsideL' hq with ⟨ht', hLe'⟩ | ⟨ch', hchne', hchrec', hchs', hchd'⟩
        · rw [ht, ht']
        · rcases ch' with _ | ⟨cx, lx, kx, dx, ex, rx⟩
          · exact absurd rfl hchne'
          · rw [hLe] at hchd'
            exact absurd hchd'.symm (hne cx kx dx ex)
        · rcases ch with _ | ⟨cx, lx, kx, dx, ex, rx⟩
          · exact absurd rfl hchne
          · rw [hLe'] at hchd
            exact absurd hchd.symm (hne cx kx dx ex)
        · have hde : digest H ch = digest H ch' := by rw [← hchd, ← hchd']
          rw [ih t' ch ch' hchrec hchs hchrec' hchs' hde]
      · rcases hsideR hq with ⟨ht, hRe⟩ | ⟨ch, hchne, hchrec, hchs, hchd⟩ <;>
          rcases hsideR' hq with ⟨ht', hRe'⟩ | ⟨ch', hchne', hchrec', hchs', hchd'⟩
        · rw [ht, ht']
        · rcases ch' with _ | ⟨cx, lx, kx, dx, ex, rx⟩
          · exact absurd rfl hchne'
          · rw [hRe] at hchd'
            exact absurd hchd'.symm (hne cx kx dx ex)
        · rcases ch with _ | ⟨cx, lx, kx, dx, ex, rx⟩
          · exact absurd rfl hchne
          · rw [hRe'] at hchd
            exact absurd hchd.symm (hne cx kx dx ex)
        · have hde : digest H ch = digest H ch' := by rw [← hchd, ← hchd']
          rw [ih t' ch ch' hchrec hchs hchrec' hchs' hde]

/-- Verification is deterministic in the proof when the hash is injective
and cannot produce the empty sentinel. -/
theorem verify_det
    (hinj : ∀ c k dL dR c' k' dL' dR', H c k dL dR = H c' k' dL' dR' →
      c = c' ∧ k = k' ∧ dL = dL' ∧ dR = dR')
    (hne : ∀ c k dL dR, H c k dL dR ≠ .emp) (q : Int) (d0 : Digest)
    (p p' : List Step) (h : verify H q d0 p = true) (h' : verify H q d0 p' = true) :
    p = p' := by
  simp only [verify] at h h'
  rcases hx : reconstruct H p with _ | r <;> simp only [hx] at h
  · exact absurd h (by simp)
  · rcases hx' : reconstruct H p' with _ | r' <;> rw [hx'] at h'
    · exact absurd h' (by simp)
    · simp only [Bool.and_eq_true, decide_eq_true_eq] at h h'
      exact chain_det H hinj hne q p p' r r' hx h.2.symm hx' h'.2.symm
        (by rw [h.1, h'.1])

/-! ### Claim theorems -/

/-- C1, counterexample: the round-trip law fails for the literal
quantification over every tree.  `badTree` has a stale cached digest, so
`reconstruct` rejects the collected proof (the Python code raises
`AssertionError`) and replaying search over the reconstruction is
impossible. -/
theorem C1_cex :
    ¬ ∃ S, reconstruct Digest.mk (search 5 badTree) = some S ∧
      search 5 S = search 5 badTree := by
  intro hex
  obtain ⟨S, hS, -⟩ := hex
  have h : reconstruct Digest.mk (search 5 badTree) = none := by decide
  rw [h] at hS
  exact Option.noConfusion hS

/-- C1, amended: for every query key q and every tree D obtained from the
empty tree by a finite sequence of insertions, reconstructing the
collected proof of `search q D` succeeds and replaying `search q` over
the reconstruction yields exactly the same ordered sequence of steps. -/
theorem C1_round_trip (H : Col → Int → Digest → Digest → Digest) (q : Int)
    (T : Tree) (h : Reachable H T) :
    ∃ S, reconstruct H (search q T) = some S ∧ search q S = search q T := by
  obtain ⟨hWF, -, -⟩ := reachable_pack H h
  obtain ⟨S, h1, h2, -⟩ := roundtrip H q T hWF
  exact ⟨S, h1, h2⟩

/-- Witness for C1 at the tree built by inserting 5 then 3, query 4. -/
theorem C1_round_trip_witness :
    ∃ S, reconstruct Digest.mk (search 4 (insert Digest.mk 3 (insert Digest.mk 5 .nil)))
        = some S ∧
      search 4 S = search 4 (insert Digest.mk 3 (insert Digest.mk 5 .nil)) :=
  C1_round_trip Digest.mk 4 _
    (Reachable.step 3 (insert Digest.mk 5 .nil) (Reachable.step 5 .nil Reachable.empty))

/-- C2, counterexample: insert is not idempotent on arbitrary trees.
`oddTree` carries a red-red violation off the first insertion's path; the
second identical insertion walks past a black root and the balancer
rewrites the shape, so the two results differ structurally. -/
theorem C2_cex :
    insert Digest.mk 5 (insert Digest.mk 5 oddTree) ≠ insert Digest.mk 5 oddTree := by
  decide

/-- C2, amended: for every key q and every tree T obtained from the empty
tree by insertions, inserting q twice is structurally identical to
inserting it once; insertion of a present key is a total no-op (the
embedding is a total function: there is no failure path). -/
theorem C2_insert_idem (H : Col → Int → Digest → Digest → Digest) (q : Int)
    (T : Tree) (h : Reachable H T) :
    insert H q (insert H q T) = insert H q T := by
  obtain ⟨hWF, hRR, -⟩ := reachable_pack H h
  obtain ⟨hWF2, hRR2, hrb2, hmem2, -⟩ := insert_pack H q T hWF hRR
  exact insert_found H q (insert H q T) hWF2 hRR2 hrb2 ((hmem2 q).mpr (Or.inr rfl))

/-- Witness for C2 at the tree built by inserting 5 then 3, key 3. -/
theorem C2_insert_idem_witness :
    insert Digest.mk 3 (insert Digest.mk 3 (insert Digest.mk 5 .nil))
      = insert Digest.mk 3 (insert Digest.mk 5 .nil) :=
  C2_insert_idem Digest.mk 3 _ (Reachable.step 5 .nil Reachable.empty)

/-- C3: every tree obtained from the empty tree by a finite sequence of
insertions has no Red node with a Red child (`noRR`, hereditarily), and
its root, if any, is Black (`isRed` is false on the empty tree and on
Black-rooted nodes). -/
theorem C3_red_black_invariant (H : Col → Int → Digest → Digest → Digest)
    (T : Tree) (h : Reachable H T) : noRR T ∧ isRed T = false :=
  ⟨(reachable_pack H h).2.1, (reachable_pack H h).2.2⟩

/-- Witness for C3 at the tree built by inserting 5, 3, 7. -/
theorem C3_red_black_invariant_witness :
    noRR (insert Digest.mk 7 (insert Digest.mk 3 (insert Digest.mk 5 .nil))) ∧
      isRed (insert Digest.mk 7 (insert Digest.mk 3 (insert Digest.mk 5 .nil))) = false :=
  C3_red_black_invariant Digest.mk _
    (Reachable.step 7 _ (Reachable.step 3 _ (Reachable.step 5 .nil Reachable.empty)))

/-- C4: `verify q d0 p` succeeds exactly when reconstruction succeeds,
the reconstructed spine's digest equals the trusted digest d0, and
replaying the search over the spine reproduces the proof exactly; any
failed check yields rejection, never a success value. -/
theorem C4_verify_iff (H : Col → Int → Digest → Digest → Digest) (q : Int)
    (d0 : Digest) (p : List Step) :
    verify H q d0 p = true ↔
      ∃ r, reconstruct H p = some r ∧ digest H r = d0 ∧ p = search q r := by
  simp only [verify]
  rcases hx : reconstruct H p with _ | r
  · simp
  · constructor
    · intro h
      simp only [Bool.and_eq_true, decide_eq_true_eq] at h
      exact ⟨r, rfl, h.1, h.2⟩
    · rintro ⟨r2, hrr, h2, h3⟩
      obtain rfl : r = r2 := Option.some.inj hrr
      simp [h2, h3]

/-- C5, counterexample: on the empty tree the Python `query` returns
`None` as its first component, not the boolean `False`; in the embedding
the first component has type `Option Bool` and is `none`, not
`some false`. -/
theorem C5_cex : ¬ ((query 0 Tree.nil).1 = some false) := by decide

/-- C5, amended: `query q D` returns the pair of the membership outcome
and the full search proof; the outcome is `none` (Python `None`, not the
boolean false) when the proof is empty, which happens exactly when the
tree is empty, and otherwise it is the boolean equality of the last
step's key with q. -/
theorem C5_query_spec (q : Int) (D : Tree) :
    (query q D).2 = search q D ∧
    (query q D).1 = ((search q D).getLast?).map (fun s => s.2.1 == q) ∧
    (search q D = [] ↔ D = .nil) := by
  refine ⟨?_, ?_, ?_⟩
  · simp only [query]
    rcases hx : (search q D).getLast? with _ | ⟨c, k, dl, dr⟩ <;> rfl
  · simp only [query]
    rcases hx : (search q D).getLast? with _ | ⟨c, k, dl, dr⟩ <;> rfl
  · cases D with
    | nil => simp [search]
    | node c l k dL dR r => simp [search]

/-- C6, counterexample: the newly created singleton node is Black, not
Red.  Inserting 3 below the leaf 5, the node created at the empty left
side is `('B', (), (3,'',''), ())`; only the wrapper above it is Red. -/
theorem C6_cex :
    ins Digest.mk 3 (.node .B .nil 5 .emp .emp .nil)
      = .node .R (.node .B .nil 3 .emp .emp .nil) 3 (Digest.mk .B 3 .emp .emp)
        (Digest.mk .B 5 .emp .emp) (.node .B .nil 5 .emp .emp .nil) ∧
    isRed (.node .B .nil 3 .emp .emp .nil) = false := by
  decide

/-- C6, amended: when the key differs from the current node's key and the
side to descend into is Empty, `ins` creates the new singleton there as a
Black node with payload `(q, '', '')`, blackens the whole current node as
the other sibling, wraps the pair as a Red node (keyed by the new key on
the left case, by the current payload on the right case), rehashes and
balances. -/
theorem C6_leaf_insert (H : Col → Int → Digest → Digest → Digest)
    (q k : Int) (c : Col) (dL dR : Digest) (l r : Tree) :
    (q < k → ins H q (.node c .nil k dL dR r)
      = balance H (rehash H (.node .R (.node .B .nil q .emp .emp .nil) q .emp .emp
          (.node .B .nil k dL dR r)))) ∧
    (k < q → ins H q (.node c l k dL dR .nil)
      = balance H (rehash H (.node .R (.node .B l k dL dR .nil) k dL dR
          (.node .B .nil q .emp .emp .nil)))) := by
  constructor
  · intro hlt
    simp only [ins, make_black]
    rw [if_neg (by omega : ¬ q = k), if_pos ⟨hlt, by trivial⟩]
  · intro hgt
    simp only [ins, make_black]
    rw [if_neg (by omega : ¬ q = k), if_neg (fun h => absurd h.1 (by omega)),
      if_pos ⟨hgt, by trivial⟩]

/-- Witness for C6 on both leaf branches at keys 3 and 7 below leaf 5. -/
theorem C6_leaf_insert_witness :
    ins Digest.mk 3 (.node .B .nil 5 .emp .emp .nil)
      = balance Digest.mk (rehash Digest.mk
          (.node .R (.node .B .nil 3 .emp .emp .nil) 3 .emp .emp
            (.node .B .nil 5 .emp .emp .nil))) ∧
    ins Digest.mk 7 (.node .B .nil 5 .emp .emp .nil)
      = balance Digest.mk (rehash Digest.mk
          (.node .R (.node .B .nil 5 .emp .emp .nil) 5 .emp .emp
            (.node .B .nil 7 .emp .emp .nil))) :=
  ⟨(C6_leaf_insert Digest.mk 3 5 .B .emp .emp .nil .nil).1 (by decide),
   (C6_leaf_insert Digest.mk 7 5 .B .emp .emp .nil .nil).2 (by decide)⟩

/-- C7, counterexample: in the concrete scenario (insert 5, 3, 7, 9, 11,
then query 7) the proof has 3 steps, not 2: the root (key 5), the inner
routing node with key 7, and the landing leaf with key 7. -/
theorem C7_cex : ¬ ((query 7 demoTree).2.length = 2) := by decide

/-- C7, amended: in the concrete scenario the query for 7 reports
membership `true` with a 3-step proof whose last step's key is 7, and
`verify` accepts the proof against the root digest. -/
theorem C7_scenario :
    (query 7 demoTree).1 = some true ∧
    (query 7 demoTree).2.length = 3 ∧
    ((query 7 demoTree).2.getLast?).map (fun s => s.2.1) = some 7 ∧
    verify Digest.mk 7 (digest Digest.mk demoTree) (query 7 demoTree).2 = true := by
  decide

/-- C8: the four red-red shapes rewrite, in the source's priority order,
to the one Red node with key y over Black nodes (x over a,b) and
(z over c,d), digests repaired by `rehash`; every node matching no shape
— whether its root is not Black, or it is Black-rooted with no `viol`
child — is returned structurally unchanged up to `rehash`.  The guards
on parts 2-4 state that no earlier shape matched; part 5's guard,
`shapeMatch = false`, states exactly that none of the four patterns
matches the node. -/
theorem C8_balance_spec (H : Col → Int → Digest → Digest → Digest)
    (a b c d l r : Tree) (x y z k : Int) (m n o p u v w w2 dL dR : Digest)
    (cc : Col) :
    (balance H (.node .B (.node .R (.node .R a x m n b) y u o c) z v p d)
        = rehash H (.node .R (.node .B a x m n b) y .emp .emp (.node .B c z o p d))) ∧
    (isRed a = false →
      balance H (.node .B (.node .R a x m w (.node .R b y n o c)) z v p d)
        = rehash H (.node .R (.node .B a x m n b) y .emp .emp (.node .B c z o p d))) ∧
    (viol a = false →
      balance H (.node .B a x m w (.node .R (.node .R b y n o c) z v p d))
        = rehash H (.node .R (.node .B a x m n b) y .emp .emp (.node .B c z o p d))) ∧
    (viol a = false → isRed b = false →
      balance H (.node .B a x m w (.node .R b y n w2 (.node .R c z o p d)))
        = rehash H (.node .R (.node .B a x m n b) y .emp .emp (.node .B c z o p d))) ∧
    (shapeMatch (.node cc l k dL dR r) = false →
      balance H (.node cc l k dL dR r) = rehash H (.node cc l k dL dR r)) :=
  ⟨balance_shape1 H a b c d x y z m n o p u v,
   fun ha => balance_shape2 H a b c d x y z m n o p v w ha,
   fun ha => balance_shape3 H a b c d x y z m n o p v w ha,
   fun ha hb => balance_shape4 H a b c d x y z m n o p w w2 ha hb,
   fun h => balance_of_no_shape H cc l r k dL dR h⟩

/-- Witness for C8: shape 2 at a concrete red-red input, and the
no-match part at a Red-rooted node whose left child itself carries a
red-red violation — a node no Black-rooted pattern can match. -/
theorem C8_balance_spec_witness :
    balance Digest.mk
        (.node .B (.node .R .nil 1 .emp .emp (.node .R .nil 2 .emp .emp .nil)) 3 .emp .emp .nil)
      = rehash Digest.mk
          (.node .R (.node .B .nil 1 .emp .emp .nil) 2 .emp .emp
            (.node .B .nil 3 .emp .emp .nil)) ∧
    balance Digest.mk
        (.node .R (.node .R (.node .R .nil 1 .emp .emp .nil) 2 .emp .emp .nil) 3 .emp .emp .nil)
      = rehash Digest.mk
          (.node .R (.node .R (.node .R .nil 1 .emp .emp .nil) 2 .emp .emp .nil) 3 .emp .emp .nil) :=
  ⟨(C8_balance_spec Digest.mk .nil .nil .nil .nil .nil .nil 1 2 3 1
      .emp .emp .emp .emp .emp .emp .emp .emp .emp .emp .B).2.1 (by decide),
   (C8_balance_spec Digest.mk .nil .nil .nil .nil
      (.node .R (.node .R .nil 1 .emp .emp .nil) 2 .emp .emp .nil) .nil 1 2 3 3
      .emp .emp .emp .emp .emp .emp .emp .emp .emp .emp .R).2.2.2.2 (by decide)⟩

/-- C9: with a hash that is injective on node inputs and never returns
the empty sentinel, a valid query proof is the only sequence verifying
against the tree's digest: any proof differing from it in any way, in
particular in a single digest or key field of any step, is rejected. -/
theorem C9_tamper (H : Col → Int → Digest → Digest → Digest)
    (hinj : ∀ c k dL dR c2 k2 dL2 dR2, H c k dL dR = H c2 k2 dL2 dR2 →
      c = c2 ∧ k = k2 ∧ dL = dL2 ∧ dR = dR2)
    (hne : ∀ c k dL dR, H c k dL dR ≠ .emp)
    (q : Int) (T : Tree) (p2 : List Step)
    (hv : verify H q (digest H T) (query q T).2 = true)
    (hdiff : p2 ≠ (query q T).2) :
    verify H q (digest H T) p2 = false := by
  cases h2 : verify H q (digest H T) p2 with
  | false => rfl
  | true =>
    exact absurd (verify_det H hinj hne q (digest H T) p2 (query q T).2 h2 hv) hdiff

/-- Witness for C9: the valid proof for key 5 in the singleton tree is
`[(B,5,'','')]`; changing the key field of its only step to 6 makes
verification fail. -/
theorem C9_tamper_witness :
    verify Digest.mk 5 (digest Digest.mk (insert Digest.mk 5 .nil))
      [(.B, 6, .emp, .emp)] = false :=
  C9_tamper Digest.mk
    (fun c k dL dR c2 k2 dL2 dR2 h => by
      injection h with h1 h2 h3 h4
      exact ⟨h1, h2, h3, h4⟩)
    (fun c k dL dR h => Digest.noConfusion h)
    5 (insert Digest.mk 5 .nil) [(.B, 6, .emp, .emp)] (by decide) (by decide)

/-- C10: the engine carries no value payload.  Every proof step produced
by `search` is exactly the (color, key, leftDigest, rightDigest) summary
of a visited node of the tree, and the node payload created for an
inserted key is the bare triple `(q, '', '')` with no value field; the
`Step` and `Tree` types of the embedding have no value component, and
`ins`/`insert` take only a key and a tree, mirroring the source. -/
theorem C10_no_value_payload (H : Col → Int → Digest → Digest → Digest)
    (q : Int) (D : Tree) :
    search q D = (visited q D).map stepOf ∧
    (∀ t, t ∈ visited q D → Subtree t D ∧ t ≠ .nil) ∧
    (∀ k, ins H k .nil = .node .B .nil k .emp .emp .nil) := by
  refine ⟨?_, ?_, fun k => rfl⟩
  · induction D with
    | nil => rfl
    | node c l k dL dR r ihl ihr =>
      simp only [search, visited, List.map_cons]
      by_cases hq : q ≤ k <;> simp [hq, ihl, ihr, stepOf]
  · induction D with
    | nil =>
      intro t ht
      exact absurd ht (by simp [visited])
    | node c l k dL dR r ihl ihr =>
      intro t ht
      simp only [visited] at ht
      rcases List.mem_cons.mp ht with h | h
      · subst h
        exact ⟨Subtree.refl _, by simp⟩
      · by_cases hq : q ≤ k
        · rw [if_pos hq] at h
          obtain ⟨h1, h2⟩ := ihl t h
          exact ⟨Subtree.left t c l k dL dR r h1, h2⟩
        · rw [if_neg hq] at h
          obtain ⟨h1, h2⟩ := ihr t h
          exact ⟨Subtree.right t c l k dL dR r h1, h2⟩

/-- Witness for C10: the visited-node characterization applied to the
singleton tree for key 5. -/
theorem C10_no_value_payload_witness :
    Subtree (.node .B .nil 5 .emp .emp .nil) (insert Digest.mk 5 .nil) ∧
      (Tree.node .B .nil 5 .emp .emp .nil) ≠ .nil :=
  (C10_no_value_payload Digest.mk 5 (insert Digest.mk 5 .nil)).2.1 _ (by decide)

end InsMain

end ARB
